import Mathlib

/-!
Verification of the CSP solver in
`src/ch3_constraint_satisfaction_problems/{csp.rs, map_coloring.rs}`.

The Rust code is generic over a variable type `V : Eq + Hash + Clone` and a
domain-value type `D : Clone + PartialEq`; we model both as Lean types with
decidable equality.  `HashMap<V, T>` values are modelled as association lists
`List (V × T)` looked up by first match.  The code only ever reads a map via
`get` / `contains_key` / indexing, inserts, and takes `len`; it never iterates
a map, so the association-list model is observation-equivalent.  `HashMap`'s
`insert` replaces an existing binding; consing a fresh pair to the front gives
the same `get` semantics (first match shadows), and the solver only ever
inserts a key that is absent from the map (the first unassigned variable), so
`len` agrees as well on every state the program reaches.
-/

variable {V D : Type} [DecidableEq V] [DecidableEq D]

/-- `HashMap::get`: first binding of the key in the association list. -/
def lookup? : List (V × D) → V → Option D
  | [], _ => none
  | p :: rest, k => if p.1 = k then some p.2 else lookup? rest k

/-- `HashMap::contains_key` (equivalently, `get(..).is_some()`). -/
def containsKey (a : List (V × D)) (k : V) : Bool :=
  (lookup? a k).isSome

/-- `HashMap::insert`.  Consing shadows any earlier binding of the key, which
matches `insert`'s replace semantics under `lookup?`; the solver only inserts
absent keys, where this is also length-faithful. -/
def insertA (a : List (V × D)) (k : V) (v : D) : List (V × D) :=
  (k, v) :: a

/-- Keys of an association list. -/
def keysOf (a : List (V × D)) : List V :=
  a.map Prod.fst

/-- The Rust trait `Constraint<V, D>`: a scope (`get_variables`) together with
a satisfaction predicate over an assignment snapshot.  Trait objects are
modelled as a structure with a function field. -/
structure Constraint (V D : Type) where
  vars : List V
  satisfied : List (V × D) → Bool

/-- The doubly nested index loop in `NotEqualConstraint::satisfied`: `false`
iff two distinct positions of the list hold equal values. -/
def pairwiseDistinctLoop (values : List D) : Bool :=
  (List.range values.length).all fun i =>
    (List.range values.length).all fun j =>
      !(decide (i ≠ j) && decide (values.get? i = values.get? j))

/-- `NotEqualConstraint` (from the tests in `csp.rs`): collects the values of
its scope variables that are present in the assignment (`filter` by
`is_some` then `map`+`unwrap`, i.e. `filterMap`) and requires them pairwise
distinct. -/
def NotEqualConstraint (vs : List V) : Constraint V D where
  vars := vs
  satisfied := fun assignment =>
    pairwiseDistinctLoop (vs.filterMap fun v => lookup? assignment v)

/-- `MapColoringConstraint` (from `map_coloring.rs`): scope
`vec![place1, place2]`; satisfied iff the two places, when both assigned, get
different colors.  (`variables.first()` is `place1`, `variables.last()` is
`place2`.) -/
def MapColoringConstraint (place1 place2 : V) : Constraint V D where
  vars := [place1, place2]
  satisfied := fun assignment =>
    match lookup? assignment place1, lookup? assignment place2 with
    | some c1, some c2 => decide (c1 ≠ c2)
    | _, _ => true

/-- The struct `CSP<V, D>`. -/
structure CSP (V D : Type) where
  vars : List V
  domains : List (V × List D)
  constraints : List (V × List (Constraint V D))

/-- `CSP::new`: panics (modelled as `none`) when some variable has no domain
entry; otherwise the CSP with the given variables and domains and an empty
constraint index.  Empty domain lists are accepted. -/
def CSP.new (vs : List V) (domains : List (V × List D)) :
    Option (CSP V D) :=
  if vs.all fun v => containsKey domains v then
    some ⟨vs, domains, []⟩
  else
    none

/-- `self.constraints.entry(v).or_insert(vec![]).push(c)`. -/
def pushConstraint (m : List (V × List (Constraint V D))) (v : V)
    (c : Constraint V D) : List (V × List (Constraint V D)) :=
  (v, ((lookup? m v).getD []) ++ [c]) :: m

/-- The loop of `CSP::add_constraint` over the constraint's scope.  A scope
variable absent from the CSP's variable list panics; the `.error` carries the
CSP state at that moment (the pushes already performed are kept, as in the
Rust code, whose `&mut self` mutations before the panic are not rolled
back). -/
def addConstraintLoop (c : Constraint V D) :
    List V → CSP V D → Except (CSP V D) (CSP V D)
  | [], csp => .ok csp
  | v :: rest, csp =>
    if v ∈ csp.vars then
      addConstraintLoop c rest
        { csp with constraints := pushConstraint csp.constraints v c }
    else
      .error csp

/-- `CSP::add_constraint`. -/
def CSP.add_constraint (csp : CSP V D) (c : Constraint V D) :
    Except (CSP V D) (CSP V D) :=
  addConstraintLoop c c.vars csp

/-- `CSP::consistent`: every constraint indexed under `v` is satisfied by the
assignment (vacuously true when `v` has no index entry). -/
def CSP.consistent (csp : CSP V D) (v : V) (assignment : List (V × D)) :
    Bool :=
  match lookup? csp.constraints v with
  | some constraints => constraints.all fun c => c.satisfied assignment
  | none => true

/-- `self.domains[first]`: the `Index` impl of `HashMap` panics when the key
is absent; every CSP built by `CSP.new` has a domain entry for every variable,
so the panic branch is unreachable there and we return `[]` for totality. -/
def mapIndex (m : List (V × List D)) (k : V) : List D :=
  (lookup? m k).getD []

/-- `CSP::backtracking_search`.  The `for value in &self.domains[first]` loop
with `if result.is_some() { return result }` is exactly `List.findSome?` of
the body over the domain list: the first branch producing a solution wins,
branches that are locally inconsistent or fail downstream contribute
`none`. -/
def CSP.backtracking_search (csp : CSP V D) (assignment : List (V × D)) :
    Option (List (V × D)) :=
  if assignment.length = csp.vars.length then
    some assignment
  else
    match hfi : (csp.vars.filter fun v => !containsKey assignment v).head? with
    | none => none
    | some first =>
      (mapIndex csp.domains first).findSome? fun value =>
        let local_assignment := insertA assignment first value
        if csp.consistent first local_assignment then
          csp.backtracking_search local_assignment
        else
          none
termination_by (csp.vars.filter fun v => !containsKey assignment v).length
decreasing_by
  have hmem : first ∈ csp.vars.filter (fun v => !containsKey assignment v) := by
    obtain ⟨ys, hys⟩ := List.head?_eq_some_iff.mp hfi
    rw [hys]
    exact List.mem_cons_self _ _
  have hstep : (csp.vars.filter fun v => !containsKey (insertA assignment first value) v)
      = ((csp.vars.filter fun v => !containsKey assignment v).filter
          fun v => decide ¬(v = first)) := by
    rw [List.filter_filter]
    apply List.filter_congr
    intro x _
    by_cases hxf : x = first
    · subst hxf
      simp [insertA, containsKey, lookup?]
    · simp [insertA, containsKey, lookup?, hxf, Ne.symm hxf]
  rw [hstep]
  have key : ∀ l : List V, first ∈ l →
      ((l.filter fun v => decide ¬(v = first)).length < l.length) := by
    intro l hl
    induction l with
    | nil => cases hl
    | cons x xs ih =>
      by_cases hx : x = first
      · subst hx
        rw [List.filter_cons, if_neg (by simp)]
        exact Nat.lt_succ_of_le (List.length_filter_le _ _)
      · rcases List.mem_cons.mp hl with h | h
        · exact absurd h.symm hx
        · rw [List.filter_cons, if_pos (by simp [hx])]
          simpa using Nat.succ_lt_succ (ih h)
  exact key _ hmem

/-- The list of constraints indexed under `v` (empty when `v` has no entry),
i.e. the value `CSP::consistent` iterates over. -/
def constraintsAt (csp : CSP V D) (v : V) : List (Constraint V D) :=
  (lookup? csp.constraints v).getD []

/-- Two assignments denote the same `HashMap<V, D>`: same size and the same
value (or absence) for every key. -/
def AEquiv (a b : List (V × D)) : Prop :=
  a.length = b.length ∧ ∀ v, lookup? a v = lookup? b v

/-- Lift of `AEquiv` to the solver's `Option` result: both no-solution, or
both solutions denoting the same map. -/
def OEquiv : Option (List (V × D)) → Option (List (V × D)) → Prop
  | none, none => True
  | some f, some g => AEquiv f g
  | _, _ => False

/-- The constraint's `satisfied` reads the assignment only through `get`
(so it cannot observe the map's internal representation).  Required of any
`Constraint` impl for the search to be representation-independent; both
variants in the repository satisfy it. -/
def RespectsLookups (c : Constraint V D) : Prop :=
  ∀ a b : List (V × D), (∀ v, lookup? a v = lookup? b v) →
    c.satisfied a = c.satisfied b

/-- The constraint's `satisfied` depends only on the values its own scope
variables are mapped to.  Both variants in the repository satisfy it. -/
def DependsOnlyOnScope (c : Constraint V D) : Prop :=
  ∀ a b : List (V × D), (∀ v ∈ c.vars, lookup? a v = lookup? b v) →
    c.satisfied a = c.satisfied b

/-- The reachable extensions of an assignment inside `backtracking_search`:
each step assigns the value of a still-unassigned CSP variable, drawn from
that variable's domain, and passes the `consistent` check made right after
the insertion. -/
inductive BuiltFrom (csp : CSP V D) : List (V × D) → List (V × D) → Prop where
  | refl (a : List (V × D)) : BuiltFrom csp a a
  | step (a : List (V × D)) (first : V) (value : D) (F : List (V × D)) :
      first ∈ csp.vars →
      containsKey a first = false →
      value ∈ mapIndex csp.domains first →
      csp.consistent first (insertA a first value) = true →
      BuiltFrom csp (insertA a first value) F →
      BuiltFrom csp a F

/-- Final CSP state of a registration call, whether it returned normally or
panicked (a Rust caller that catches the unwinding panic observes the `&mut`
state as mutated so far). -/
def exOk (r : Except (CSP V D) (CSP V D)) : CSP V D :=
  match r with
  | .ok csp => csp
  | .error csp => csp

/-- Scenario 1 of the spec (the `test_csp` test), with `A, B, C` encoded as
`0, 1, 2`: three variables with domain `[1, 2, 3]` each and pairwise
not-equal constraints registered on `(A,B)`, `(B,C)`, `(A,C)`, built through
`CSP.new` and `CSP.add_constraint` in that order. -/
def cspABC : CSP Nat Nat :=
  exOk ((exOk ((exOk (((CSP.new [0, 1, 2]
    [(0, [1, 2, 3]), (1, [1, 2, 3]), (2, [1, 2, 3])]).getD ⟨[], [], []⟩).add_constraint
      (NotEqualConstraint [0, 1]))).add_constraint
      (NotEqualConstraint [1, 2]))).add_constraint
      (NotEqualConstraint [0, 2]))

/-- Two variables `0, 1` with domains `[1, 2]` and a not-equal constraint
between them. -/
def cspPair : CSP Nat Nat :=
  exOk (((CSP.new [0, 1] [(0, [1, 2]), (1, [1, 2])]).getD ⟨[], [], []⟩).add_constraint
    (NotEqualConstraint [0, 1]))

/-- One variable `0` whose declared domain is the empty list (legal input to
`CSP.new`), no constraints. -/
def cspEmptyDom : CSP Nat Nat :=
  (CSP.new [0] [(0, [])]).getD ⟨[], [], []⟩

/-- One variable `0` with domain `[1]`, no constraints. -/
def cspSingle : CSP Nat Nat :=
  (CSP.new [0] [(0, [1])]).getD ⟨[], [], []⟩

/-! ### Basic lemmas about the association-list map operations -/

theorem lookup?_insertA_eq (a : List (V × D)) (k x : V) (v : D) :
    lookup? (insertA a k v) x = if k = x then some v else lookup? a x := by
  simp [insertA, lookup?]

theorem containsKey_insertA (a : List (V × D)) (k x : V) (v : D) :
    containsKey (insertA a k v) x = (decide (k = x) || containsKey a x) := by
  by_cases h : k = x <;> simp [containsKey, lookup?_insertA_eq, h]

theorem containsKey_iff_mem (a : List (V × D)) (k : V) :
    containsKey a k = true ↔ k ∈ keysOf a := by
  induction a with
  | nil => simp [containsKey, lookup?, keysOf]
  | cons p rest ih =>
    by_cases h : p.1 = k
    · simp [containsKey, lookup?, keysOf, h]
    · simpa [containsKey, lookup?, keysOf, h, Ne.symm h] using ih

theorem containsKey_eq_false_iff (a : List (V × D)) (k : V) :
    containsKey a k = false ↔ k ∉ keysOf a := by
  rw [← containsKey_iff_mem]
  cases containsKey a k <;> simp

theorem mem_keysOf_exists (a : List (V × D)) (k : V) (h : k ∈ keysOf a) :
    ∃ d, (k, d) ∈ a := by
  obtain ⟨⟨k', d⟩, hp, hk⟩ := List.mem_map.mp h
  exact ⟨d, by cases hk; exact hp⟩

/-! ### Unfolding lemmas for `backtracking_search` (its well-founded
recursion does not reduce definitionally, so the three branches are exposed
as equations) -/

theorem bs_complete (csp : CSP V D) (a : List (V × D))
    (h : a.length = csp.vars.length) :
    csp.backtracking_search a = some a := by
  rw [CSP.backtracking_search.eq_def]
  rw [if_pos h]

theorem bs_none (csp : CSP V D) (a : List (V × D))
    (h : ¬ a.length = csp.vars.length)
    (hf : (csp.vars.filter fun v => !containsKey a v).head? = none) :
    csp.backtracking_search a = none := by
  rw [CSP.backtracking_search.eq_def]
  rw [if_neg h]
  split
  · rfl
  · rename_i first heq
    rw [hf] at heq
    cases heq

theorem bs_step (csp : CSP V D) (a : List (V × D))
    (h : ¬ a.length = csp.vars.length) (first : V)
    (hf : (csp.vars.filter fun v => !containsKey a v).head? = some first) :
    csp.backtracking_search a = (mapIndex csp.domains first).findSome? fun value =>
      if csp.consistent first (insertA a first value) then
        csp.backtracking_search (insertA a first value)
      else
        none := by
  rw [CSP.backtracking_search.eq_def]
  rw [if_neg h]
  split
  · rename_i heq
    rw [hf] at heq
    cases heq
  · rename_i first' heq
    rw [hf] at heq
    cases heq
    rfl

/-- Assigning the first unassigned variable strictly shrinks the unassigned
list (the termination measure of the search). -/
theorem unassigned_lt (csp : CSP V D) (a : List (V × D)) (first : V) (value : D)
    (hf : (csp.vars.filter fun v => !containsKey a v).head? = some first) :
    (csp.vars.filter fun v => !containsKey (insertA a first value) v).length
      < (csp.vars.filter fun v => !containsKey a v).length := by
  have hmem : first ∈ csp.vars.filter (fun v => !containsKey a v) := by
    obtain ⟨ys, hys⟩ := List.head?_eq_some_iff.mp hf
    rw [hys]
    exact List.mem_cons_self _ _
  have hstep : (csp.vars.filter fun v => !containsKey (insertA a first value) v)
      = ((csp.vars.filter fun v => !containsKey a v).filter
          fun v => decide ¬(v = first)) := by
    rw [List.filter_filter]
    apply List.filter_congr
    intro x _
    by_cases hxf : x = first
    · subst hxf
      simp [insertA, containsKey, lookup?]
    · simp [insertA, containsKey, lookup?, hxf, Ne.symm hxf]
  rw [hstep]
  have key : ∀ l : List V, first ∈ l →
      ((l.filter fun v => decide ¬(v = first)).length < l.length) := by
    intro l hl
    induction l with
    | nil => cases hl
    | cons x xs ih =>
      by_cases hx : x = first
      · subst hx
        rw [List.filter_cons, if_neg (by simp)]
        exact Nat.lt_succ_of_le (List.length_filter_le _ _)
      · rcases List.mem_cons.mp hl with h | h
        · exact absurd h.symm hx
        · rw [List.filter_cons, if_pos (by simp [hx])]
          simpa using Nat.succ_lt_succ (ih h)
  exact key _ hmem

/-! ### Concrete run of Scenario 1 -/

/-- The search on `cspABC` from the empty assignment finds
`{A : 1, B : 2, C : 3}` (as a list, insertions cons to the front). -/
theorem cspABC_run :
    cspABC.backtracking_search [] = some [(2, 3), (1, 2), (0, 1)] := by
  have w3 : cspABC.backtracking_search [(2, 3), (1, 2), (0, 1)]
      = some [(2, 3), (1, 2), (0, 1)] := bs_complete _ _ (by decide)
  have w2 : cspABC.backtracking_search [(1, 2), (0, 1)]
      = some [(2, 3), (1, 2), (0, 1)] := by
    rw [bs_step _ _ (by decide) 2 (by decide)]
    simp only [List.findSome?, mapIndex, insertA]
    simp only [w3]
    decide
  have w1 : cspABC.backtracking_search [(0, 1)]
      = some [(2, 3), (1, 2), (0, 1)] := by
    rw [bs_step _ _ (by decide) 1 (by decide)]
    simp only [List.findSome?, mapIndex, insertA]
    simp only [w2]
    decide
  rw [bs_step _ _ (by decide) 0 (by decide)]
  simp only [List.findSome?, mapIndex, insertA]
  simp only [w1]
  decide

/-! ### Every solution is reached by a chain of consistent insertions -/

theorem bs_some_chain_aux : ∀ (n : Nat) (csp : CSP V D) (a F : List (V × D)),
    (csp.vars.filter fun v => !containsKey a v).length = n →
    csp.backtracking_search a = some F →
    BuiltFrom csp a F ∧ F.length = csp.vars.length := by
  intro n
  induction n using Nat.strong_induction_on with
  | _ n ih =>
    intro csp a F hn hrun
    by_cases hlen : a.length = csp.vars.length
    · rw [bs_complete csp a hlen] at hrun
      cases hrun
      exact ⟨BuiltFrom.refl a, hlen⟩
    · cases hf : (csp.vars.filter fun v => !containsKey a v).head? with
      | none =>
        rw [bs_none csp a hlen hf] at hrun
        cases hrun
      | some first =>
        rw [bs_step csp a hlen first hf] at hrun
        obtain ⟨value, hvmem, hval⟩ := List.exists_of_findSome?_eq_some hrun
        by_cases hcons : csp.consistent first (insertA a first value) = true
        · rw [if_pos hcons] at hval
          have hlt := unassigned_lt csp a first value hf
          rw [hn] at hlt
          obtain ⟨hchain, hflen⟩ :=
            ih _ hlt csp (insertA a first value) F rfl hval
          have hmem : first ∈ csp.vars.filter (fun v => !containsKey a v) := by
            obtain ⟨ys, hys⟩ := List.head?_eq_some_iff.mp hf
            rw [hys]
            exact List.mem_cons_self _ _
          have h1 := List.mem_filter.mp hmem
          exact ⟨BuiltFrom.step a first value F h1.1 (by simpa using h1.2)
            hvmem hcons hchain, hflen⟩
        · rw [if_neg hcons] at hval
          cases hval

theorem bs_some_chain (csp : CSP V D) (a F : List (V × D))
    (h : csp.backtracking_search a = some F) :
    BuiltFrom csp a F ∧ F.length = csp.vars.length :=
  bs_some_chain_aux _ csp a F rfl h

theorem chain_keys_nodup (csp : CSP V D) (a F : List (V × D))
    (h : BuiltFrom csp a F) (ha : (keysOf a).Nodup) : (keysOf F).Nodup := by
  induction h with
  | refl a => exact ha
  | step a first value F h1 h2 h3 h4 h5 ih =>
    apply ih
    have hkeq : keysOf (insertA a first value) = first :: keysOf a := rfl
    rw [hkeq, List.nodup_cons]
    exact ⟨(containsKey_eq_false_iff a first).mp h2, ha⟩

theorem chain_keys_mem (csp : CSP V D) (a F : List (V × D))
    (h : BuiltFrom csp a F) :
    ∀ v ∈ keysOf F, v ∈ keysOf a ∨ v ∈ csp.vars := by
  induction h with
  | refl a => exact fun v hv => Or.inl hv
  | step a first value F h1 h2 h3 h4 h5 ih =>
    intro v hv
    rcases ih v hv with hcase | hcase
    · rcases (by simpa [insertA, keysOf] using hcase : v = first ∨ v ∈ keysOf a)
        with h' | h'
      · subst h'
        exact Or.inr h1
      · exact Or.inl h'
    · exact Or.inr hcase

theorem chain_values (csp : CSP V D) (a F : List (V × D))
    (h : BuiltFrom csp a F) :
    ∀ p ∈ F, p ∈ a ∨ p.2 ∈ mapIndex csp.domains p.1 := by
  induction h with
  | refl a => exact fun p hp => Or.inl hp
  | step a first value F h1 h2 h3 h4 h5 ih =>
    intro p hp
    rcases ih p hp with hcase | hcase
    · rcases (by simpa [insertA] using hcase : p = (first, value) ∨ p ∈ a)
        with h' | h'
      · subst h'
        exact Or.inr h3
      · exact Or.inl h'
    · exact Or.inr hcase

theorem chain_lookup_preserved (csp : CSP V D) (a F : List (V × D))
    (h : BuiltFrom csp a F) :
    ∀ v, containsKey a v = true → lookup? F v = lookup? a v := by
  induction h with
  | refl a => exact fun v _ => rfl
  | step a first value F h1 h2 h3 h4 h5 ih =>
    intro v hv
    have hne : first ≠ v := by
      intro he
      rw [he] at h2
      rw [hv] at h2
      cases h2
    have heq : lookup? (insertA a first value) v = lookup? a v := by
      rw [lookup?_insertA_eq, if_neg hne]
    have hck : containsKey (insertA a first value) v = true := by
      rw [containsKey_insertA, hv]
      simp
    rw [ih v hck, heq]

theorem complete_all_assigned (csp : CSP V D) (F : List (V × D))
    (hnd : (keysOf F).Nodup) (hsub : ∀ v ∈ keysOf F, v ∈ csp.vars)
    (hlen : F.length = csp.vars.length) :
    ∀ v ∈ csp.vars, containsKey F v = true := by
  intro v hv
  rw [containsKey_iff_mem]
  have hkeylen : (keysOf F).length = csp.vars.length := by
    simpa [keysOf] using hlen
  have hcard1 : (keysOf F).toFinset.card = csp.vars.length := by
    rw [List.toFinset_card_of_nodup hnd, hkeylen]
  have hsubf : (keysOf F).toFinset ⊆ csp.vars.toFinset := by
    intro x hx
    rw [List.mem_toFinset] at hx ⊢
    exact hsub x hx
  have heq : (keysOf F).toFinset = csp.vars.toFinset :=
    Finset.eq_of_subset_of_card_le hsubf
      (by rw [hcard1]; exact List.toFinset_card_le _)
  have : v ∈ (keysOf F).toFinset := by
    rw [heq]
    exact List.mem_toFinset.mpr hv
  exact List.mem_toFinset.mp this

/-- Structure of any solution found from the empty initial assignment:
complete, no duplicate keys, every CSP variable assigned, every binding a
CSP variable mapped to a value of its declared domain. -/
theorem bs_empty_solution (csp : CSP V D) (F : List (V × D))
    (h : csp.backtracking_search [] = some F) :
    F.length = csp.vars.length ∧ (keysOf F).Nodup ∧
      (∀ v ∈ csp.vars, containsKey F v = true) ∧
      (∀ p ∈ F, p.1 ∈ csp.vars ∧ p.2 ∈ mapIndex csp.domains p.1) := by
  obtain ⟨hchain, hlen⟩ := bs_some_chain csp [] F h
  have hnd := chain_keys_nodup csp [] F hchain (by simp [keysOf])
  have hmem : ∀ v ∈ keysOf F, v ∈ csp.vars := by
    intro v hv
    rcases chain_keys_mem csp [] F hchain v hv with hc | hc
    · simp [keysOf] at hc
    · exact hc
  have hvals : ∀ p ∈ F, p.2 ∈ mapIndex csp.domains p.1 := by
    intro p hp
    rcases chain_values csp [] F hchain p hp with hc | hc
    · simp at hc
    · exact hc
  refine ⟨hlen, hnd, complete_all_assigned csp F hnd hmem hlen, ?_⟩
  intro p hp
  exact ⟨hmem p.1 (List.mem_map.mpr ⟨p, hp, rfl⟩), hvals p hp⟩

/-- Along any search chain that ends with every scope variable of `C`
assigned, `C` — indexed under each of its scope variables and reading only
those variables — is satisfied by the final assignment: the `consistent`
check at the step that assigned the last open scope variable covered `C`,
and later steps do not touch the scope. -/
theorem chain_constraint_holds (csp : CSP V D) (C : Constraint V D)
    (hindexed : ∀ s ∈ C.vars, C ∈ constraintsAt csp s)
    (hlocal : DependsOnlyOnScope C) :
    ∀ a F, BuiltFrom csp a F →
      (∃ s ∈ C.vars, containsKey a s = false) →
      (∀ s ∈ C.vars, containsKey F s = true) →
      C.satisfied F = true := by
  intro a F hchain
  induction hchain with
  | refl a =>
    rintro ⟨s, hs, hfalse⟩ hall
    rw [hall s hs] at hfalse
    cases hfalse
  | step a first value F h1 h2 h3 h4 h5 ih =>
    rintro ⟨s, hs, hfalse⟩ hall
    by_cases hstill : ∃ t ∈ C.vars, containsKey (insertA a first value) t = false
    · exact ih hstill hall
    · push_neg at hstill
      have hall' : ∀ t ∈ C.vars, containsKey (insertA a first value) t = true := by
        intro t ht
        cases hck : containsKey (insertA a first value) t
        · exact absurd hck (hstill t ht)
        · rfl
      have hfs : first = s := by
        have hs' := hall' s hs
        rw [containsKey_insertA, hfalse] at hs'
        simpa using hs'
      have hCsat : C.satisfied (insertA a first value) = true := by
        have hcons := h4
        unfold CSP.consistent at hcons
        have hCmem : C ∈ constraintsAt csp first := hfs ▸ hindexed s hs
        unfold constraintsAt at hCmem
        cases hlk : lookup? csp.constraints first with
        | none =>
          rw [hlk] at hCmem
          simp at hCmem
        | some cs =>
          rw [hlk] at hcons hCmem
          simp only [Option.getD_some] at hCmem
          simp only [Option.getD] at hcons
          have := (List.all_eq_true.mp (by simpa using hcons)) C hCmem
          simpa using this
      have hpres : ∀ t ∈ C.vars, lookup? F t = lookup? (insertA a first value) t :=
        fun t ht => chain_lookup_preserved csp _ F h5 t (hall' t ht)
      rw [hlocal F (insertA a first value) hpres]
      exact hCsat

/-! ### The two constraint variants read only their scope variables -/

theorem notEqual_dependsOnScope (vs : List V) :
    DependsOnlyOnScope (NotEqualConstraint vs : Constraint V D) := by
  intro a b hab
  have hab' : ∀ v ∈ vs, lookup? a v = lookup? b v := hab
  have key : ∀ l : List V, (∀ v ∈ l, lookup? a v = lookup? b v) →
      (l.filterMap fun v => lookup? a v) = l.filterMap fun v => lookup? b v := by
    intro l hl
    induction l with
    | nil => rfl
    | cons x xs ih =>
      rw [List.filterMap_cons, List.filterMap_cons, hl x (List.mem_cons_self x xs),
        ih fun v hv => hl v (List.mem_cons_of_mem x hv)]
  show pairwiseDistinctLoop (vs.filterMap fun v => lookup? a v)
      = pairwiseDistinctLoop (vs.filterMap fun v => lookup? b v)
  rw [key vs hab']

theorem mapColoring_dependsOnScope (p1 p2 : V) :
    DependsOnlyOnScope (MapColoringConstraint p1 p2 : Constraint V D) := by
  intro a b hab
  have h1 : lookup? a p1 = lookup? b p1 := hab p1 (by simp [MapColoringConstraint])
  have h2 : lookup? a p2 = lookup? b p2 := hab p2 (by simp [MapColoringConstraint])
  show (match lookup? a p1, lookup? a p2 with
    | some c1, some c2 => decide (c1 ≠ c2)
    | _, _ => true)
    = (match lookup? b p1, lookup? b p2 with
    | some c1, some c2 => decide (c1 ≠ c2)
    | _, _ => true)
  rw [h1, h2]

theorem dependsOnScope_respects (c : Constraint V D)
    (h : DependsOnlyOnScope c) : RespectsLookups c :=
  fun a b hab => h a b fun v _ => hab v

/-! ### The search result only depends on the maps' contents, not their
representation -/

theorem list_all_congr {α : Type} (l : List α) (p q : α → Bool)
    (h : ∀ x ∈ l, p x = q x) : l.all p = l.all q := by
  induction l with
  | nil => rfl
  | cons x xs ih =>
    rw [List.all_cons, List.all_cons, h x (List.mem_cons_self x xs),
      ih fun y hy => h y (List.mem_cons_of_mem x hy)]

theorem consistent_congr (csp₁ csp₂ : CSP V D) (first : V)
    (a₁ a₂ : List (V × D))
    (hc : ∀ v, lookup? csp₁.constraints v = lookup? csp₂.constraints v)
    (hr : ∀ v, ∀ c ∈ constraintsAt csp₁ v, RespectsLookups c)
    (hab : ∀ v, lookup? a₁ v = lookup? a₂ v) :
    csp₁.consistent first a₁ = csp₂.consistent first a₂ := by
  unfold CSP.consistent
  rw [← hc first]
  cases hlk : lookup? csp₁.constraints first with
  | none => rfl
  | some cs =>
    apply list_all_congr
    intro c hcm
    have hmem : c ∈ constraintsAt csp₁ first := by
      unfold constraintsAt
      rw [hlk]
      simpa using hcm
    exact hr first c hmem a₁ a₂ hab

theorem findSome?_OEquiv (values : List D)
    (f₁ f₂ : D → Option (List (V × D)))
    (h : ∀ v ∈ values, OEquiv (f₁ v) (f₂ v)) :
    OEquiv (values.findSome? f₁) (values.findSome? f₂) := by
  induction values with
  | nil => trivial
  | cons x xs ih =>
    have hx := h x (List.mem_cons_self x xs)
    cases h₁ : f₁ x with
    | none =>
      cases h₂ : f₂ x with
      | none =>
        simp only [List.findSome?_cons, h₁, h₂]
        exact ih fun v hv => h v (List.mem_cons_of_mem x hv)
      | some G =>
        rw [h₁, h₂] at hx
        exact hx.elim
    | some F =>
      cases h₂ : f₂ x with
      | none =>
        rw [h₁, h₂] at hx
        exact hx.elim
      | some G =>
        simp only [List.findSome?_cons, h₁, h₂]
        rw [h₁, h₂] at hx
        exact hx

theorem bs_OEquiv_aux : ∀ (n : Nat) (csp₁ csp₂ : CSP V D) (a₁ a₂ : List (V × D)),
    csp₁.vars = csp₂.vars →
    (∀ v, lookup? csp₁.domains v = lookup? csp₂.domains v) →
    (∀ v, lookup? csp₁.constraints v = lookup? csp₂.constraints v) →
    (∀ v, ∀ c ∈ constraintsAt csp₁ v, RespectsLookups c) →
    (csp₁.vars.filter fun v => !containsKey a₁ v).length = n →
    AEquiv a₁ a₂ →
    OEquiv (csp₁.backtracking_search a₁) (csp₂.backtracking_search a₂) := by
  intro n
  induction n using Nat.strong_induction_on with
  | _ n ih =>
    intro csp₁ csp₂ a₁ a₂ hv hd hc hr hn hae
    obtain ⟨hlen, hab⟩ := hae
    by_cases hfull : a₁.length = csp₁.vars.length
    · have hfull₂ : a₂.length = csp₂.vars.length := by
        rw [← hlen, ← hv]
        exact hfull
      rw [bs_complete _ _ hfull, bs_complete _ _ hfull₂]
      exact ⟨hlen, hab⟩
    · have hfull₂ : ¬ a₂.length = csp₂.vars.length := by
        rw [← hlen, ← hv]
        exact hfull
      have hfilter : (csp₂.vars.filter fun v => !containsKey a₂ v)
          = (csp₁.vars.filter fun v => !containsKey a₁ v) := by
        rw [← hv]
        apply List.filter_congr
        intro x _
        unfold containsKey
        rw [hab x]
      cases hf : (csp₁.vars.filter fun v => !containsKey a₁ v).head? with
      | none =>
        rw [bs_none _ _ hfull hf, bs_none _ _ hfull₂ (by rw [hfilter]; exact hf)]
        trivial
      | some first =>
        rw [bs_step _ _ hfull first hf,
          bs_step _ _ hfull₂ first (by rw [hfilter]; exact hf)]
        have hdom : mapIndex csp₂.domains first = mapIndex csp₁.domains first := by
          unfold mapIndex
          rw [hd first]
        rw [hdom]
        apply findSome?_OEquiv
        intro value hvmem
        have habl : ∀ v, lookup? (insertA a₁ first value) v
            = lookup? (insertA a₂ first value) v := by
          intro v
          rw [lookup?_insertA_eq, lookup?_insertA_eq]
          by_cases hfv : first = v
          · rw [if_pos hfv, if_pos hfv]
          · rw [if_neg hfv, if_neg hfv]
            exact hab v
        have hconseq : csp₁.consistent first (insertA a₁ first value)
            = csp₂.consistent first (insertA a₂ first value) :=
          consistent_congr csp₁ csp₂ first _ _ hc hr habl
        cases hcons : csp₁.consistent first (insertA a₁ first value) with
        | false =>
          rw [if_neg (by simp : ¬ (false = true))]
          rw [if_neg (show ¬ csp₂.consistent first (insertA a₂ first value) = true by
            rw [← hconseq, hcons]; simp)]
          trivial
        | true =>
          rw [if_pos (rfl : (true = true)),
            if_pos (show csp₂.consistent first (insertA a₂ first value) = true by
              rw [← hconseq, hcons])]
          have hlt := unassigned_lt csp₁ a₁ first value hf
          rw [hn] at hlt
          exact ih _ hlt csp₁ csp₂ _ _ hv hd hc hr rfl
            ⟨by simp [insertA, hlen], habl⟩

/-! ### Registration: the index update and its failure behaviour -/

theorem lookup_pushConstraint (m : List (V × List (Constraint V D))) (v : V)
    (c : Constraint V D) (u : V) :
    (lookup? (pushConstraint m v c) u).getD []
      = ((lookup? m u).getD []) ++ (if v = u then [c] else []) := by
  unfold pushConstraint
  by_cases h : v = u
  · subst h
    simp [lookup?]
  · simp [lookup?, h]

theorem addLoop_ok (c : Constraint V D) : ∀ (scope : List V) (csp : CSP V D),
    (∀ v ∈ scope, v ∈ csp.vars) →
    ∃ csp', addConstraintLoop c scope csp = .ok csp' ∧ csp'.vars = csp.vars ∧
      csp'.domains = csp.domains ∧
      ∀ u, constraintsAt csp' u
        = constraintsAt csp u ++ List.replicate (scope.count u) c := by
  intro scope
  induction scope with
  | nil =>
    intro csp _
    exact ⟨csp, rfl, rfl, rfl, fun u => by simp⟩
  | cons v rest ih =>
    intro csp hall
    have hv : v ∈ csp.vars := hall v (List.mem_cons_self v rest)
    obtain ⟨csp', hok, hvars, hdoms, hcons⟩ :=
      ih { csp with constraints := pushConstraint csp.constraints v c }
        fun u hu => hall u (List.mem_cons_of_mem v hu)
    refine ⟨csp', ?_, hvars, hdoms, ?_⟩
    · simp only [addConstraintLoop]
      rw [if_pos hv]
      exact hok
    · intro u
      rw [hcons u]
      have hpc : constraintsAt
          { csp with constraints := pushConstraint csp.constraints v c } u
          = constraintsAt csp u ++ (if v = u then [c] else []) :=
        lookup_pushConstraint csp.constraints v c u
      rw [hpc]
      by_cases hvu : v = u
      · subst hvu
        simp [List.count_cons_self, List.replicate_succ, List.append_assoc]
      · rw [if_neg hvu, List.append_nil,
          List.count_cons_of_ne fun h => hvu h.symm]

theorem addLoop_error_iff (c : Constraint V D) : ∀ (scope : List V) (csp : CSP V D),
    (∃ st, addConstraintLoop c scope csp = .error st)
      ↔ ∃ v ∈ scope, v ∉ csp.vars := by
  intro scope
  induction scope with
  | nil =>
    intro csp
    constructor
    · rintro ⟨st, hst⟩
      simp [addConstraintLoop] at hst
    · rintro ⟨v, hv, _⟩
      cases hv
  | cons v rest ih =>
    intro csp
    by_cases hv : v ∈ csp.vars
    · constructor
      · rintro ⟨st, hst⟩
        simp only [addConstraintLoop] at hst
        rw [if_pos hv] at hst
        obtain ⟨u, hu, hun⟩ :=
          (ih { csp with constraints := pushConstraint csp.constraints v c }).mp
            ⟨st, hst⟩
        exact ⟨u, List.mem_cons_of_mem v hu, hun⟩
      · rintro ⟨u, hu, hun⟩
        rcases List.mem_cons.mp hu with h | h
        · subst h
          exact absurd hv hun
        · obtain ⟨st, hst⟩ :=
            (ih { csp with constraints := pushConstraint csp.constraints v c }).mpr
              ⟨u, h, hun⟩
          refine ⟨st, ?_⟩
          simp only [addConstraintLoop]
          rw [if_pos hv]
          exact hst
    · constructor
      · intro _
        exact ⟨v, List.mem_cons_self v rest, hv⟩
      · intro _
        refine ⟨csp, ?_⟩
        simp only [addConstraintLoop]
        rw [if_neg hv]

theorem addLoop_error_state (c : Constraint V D) (bad : V) (rest : List V) :
    ∀ (pre : List V) (csp : CSP V D),
    (∀ v ∈ pre, v ∈ csp.vars) → bad ∉ csp.vars →
    ∃ st, addConstraintLoop c (pre ++ bad :: rest) csp = .error st ∧
      st.vars = csp.vars ∧ st.domains = csp.domains ∧
      ∀ u, constraintsAt st u
        = constraintsAt csp u ++ List.replicate (pre.count u) c := by
  intro pre
  induction pre with
  | nil =>
    intro csp _ hbad
    refine ⟨csp, ?_, rfl, rfl, fun u => by simp⟩
    simp only [List.nil_append, addConstraintLoop]
    rw [if_neg hbad]
  | cons v pvs ih =>
    intro csp hall hbad
    have hv : v ∈ csp.vars := hall v (List.mem_cons_self _ _)
    obtain ⟨st, hst, hvars, hdoms, hcons⟩ :=
      ih { csp with constraints := pushConstraint csp.constraints v c }
        (fun u hu => hall u (List.mem_cons_of_mem v hu)) hbad
    refine ⟨st, ?_, hvars, hdoms, ?_⟩
    · simp only [List.cons_append, addConstraintLoop]
      rw [if_pos hv]
      exact hst
    · intro u
      rw [hcons u]
      have hpc : constraintsAt
          { csp with constraints := pushConstraint csp.constraints v c } u
          = constraintsAt csp u ++ (if v = u then [c] else []) :=
        lookup_pushConstraint csp.constraints v c u
      rw [hpc]
      by_cases hvu : v = u
      · subst hvu
        simp [List.count_cons_self, List.replicate_succ, List.append_assoc]
      · rw [if_neg hvu, List.append_nil,
          List.count_cons_of_ne fun h => hvu h.symm]

/-! ### Claims -/

/-- C1 (counterexample): an invocation of `backtracking_search` seeded with a
complete inconsistent assignment returns it as a solution even though a
registered constraint is violated — the claim fails for arbitrary initial
assignments. -/
theorem claim_C1_counterexample :
    cspPair.backtracking_search [(0, 1), (1, 1)] = some [(0, 1), (1, 1)]
    ∧ (NotEqualConstraint [0, 1] : Constraint Nat Nat) ∈ constraintsAt cspPair 0
    ∧ (NotEqualConstraint [0, 1] : Constraint Nat Nat).satisfied [(0, 1), (1, 1)]
        = false := by
  refine ⟨bs_complete _ _ (by decide), ?_, by decide⟩
  exact List.Mem.head _

/-- C1 (amended): every solution returned by `backtracking_search` started
from the empty assignment satisfies every registered constraint, for
constraints (like both variants in the repository) whose satisfaction
depends only on their scope variables, with a non-empty scope drawn from
the CSP's variables and indexed under each scope variable — exactly the
state `add_constraint` establishes. -/
theorem claim_C1 (csp : CSP V D) (C : Constraint V D) (F : List (V × D))
    (hne : C.vars ≠ [])
    (hsub : ∀ s ∈ C.vars, s ∈ csp.vars)
    (hindexed : ∀ s ∈ C.vars, C ∈ constraintsAt csp s)
    (hlocal : DependsOnlyOnScope C)
    (hrun : csp.backtracking_search [] = some F) :
    C.satisfied F = true := by
  obtain ⟨hchain, hlen⟩ := bs_some_chain csp [] F hrun
  obtain ⟨_, _, hallv, _⟩ := bs_empty_solution csp F hrun
  obtain ⟨s, hs⟩ := List.exists_mem_of_ne_nil C.vars hne
  apply chain_constraint_holds csp C hindexed hlocal [] F hchain
  · exact ⟨s, hs, rfl⟩
  · exact fun t ht => hallv t (hsub t ht)

/-- C1 (witness): the not-equal constraint on `(A, B)` registered in
`cspABC` holds on the solution found from the empty assignment. -/
theorem claim_C1_witness :
    (NotEqualConstraint [0, 1] : Constraint Nat Nat).satisfied
      [(2, 3), (1, 2), (0, 1)] = true := by
  apply claim_C1 cspABC (NotEqualConstraint [0, 1]) [(2, 3), (1, 2), (0, 1)]
    (by decide) (by decide) ?_ (notEqual_dependsOnScope [0, 1]) cspABC_run
  intro s hs
  rcases (by simpa [NotEqualConstraint] using hs : s = 0 ∨ s = 1) with h | h <;>
    subst h
  · exact List.Mem.head _
  · exact List.Mem.head _

/-- C2 (counterexample): seeding the search with an assignment whose size
already equals the number of variables returns it unchanged, so the result
need not assign the CSP's variables at all. -/
theorem claim_C2_counterexample :
    cspSingle.backtracking_search [(5, 7)] = some [(5, 7)]
    ∧ containsKey [((5 : Nat), (7 : Nat))] 0 = false :=
  ⟨bs_complete _ _ (by decide), by decide⟩

/-- C2 (amended): every solution returned by `backtracking_search` started
from the empty assignment is complete, has no duplicate keys, has every CSP
variable as a key, and maps each key (itself a CSP variable) to a value of
that variable's declared domain. -/
theorem claim_C2 (csp : CSP V D) (F : List (V × D))
    (hrun : csp.backtracking_search [] = some F) :
    F.length = csp.vars.length ∧ (keysOf F).Nodup ∧
      (∀ v ∈ csp.vars, containsKey F v = true) ∧
      (∀ p ∈ F, p.1 ∈ csp.vars ∧ p.2 ∈ mapIndex csp.domains p.1) :=
  bs_empty_solution csp F hrun

/-- C2 (witness): the solution of `cspABC` found from the empty assignment
is a complete, duplicate-free assignment of all three variables to domain
values. -/
theorem claim_C2_witness :
    ([((2 : Nat), (3 : Nat)), (1, 2), (0, 1)]).length = cspABC.vars.length
    ∧ (keysOf [((2 : Nat), (3 : Nat)), (1, 2), (0, 1)]).Nodup
    ∧ (∀ v ∈ cspABC.vars,
        containsKey [((2 : Nat), (3 : Nat)), (1, 2), (0, 1)] v = true)
    ∧ (∀ p ∈ [((2 : Nat), (3 : Nat)), (1, 2), (0, 1)],
        p.1 ∈ cspABC.vars ∧ p.2 ∈ mapIndex cspABC.domains p.1) :=
  claim_C2 cspABC _ cspABC_run

/-- C3: on variables `A, B, C` (encoded `0, 1, 2`) with domains `[1, 2, 3]`
and pairwise not-equal constraints on `(A,B)`, `(B,C)`, `(A,C)`, the search
from the empty assignment returns exactly the map `{A : 1, B : 2, C : 3}`:
static variable order, domain-list value order, first solution wins. -/
theorem claim_C3 :
    cspABC.backtracking_search [] = some [(2, 3), (1, 2), (0, 1)]
    ∧ lookup? [((2 : Nat), (3 : Nat)), (1, 2), (0, 1)] 0 = some 1
    ∧ lookup? [((2 : Nat), (3 : Nat)), (1, 2), (0, 1)] 1 = some 2
    ∧ lookup? [((2 : Nat), (3 : Nat)), (1, 2), (0, 1)] 2 = some 3
    ∧ ([((2 : Nat), (3 : Nat)), (1, 2), (0, 1)]).length = 3 :=
  ⟨cspABC_run, by decide, by decide, by decide, by decide⟩

/-- C4: `backtracking_search` is deterministic — the result depends only on
the variable order, the per-variable domain lists, the constraint index
contents and the initial assignment as a map, not on how the hash maps
happen to represent them, provided (as for both repository variants) every
registered constraint reads the assignment only through `get`.  Two
invocations on equal inputs therefore return equal results. -/
theorem claim_C4 (csp₁ csp₂ : CSP V D) (a₁ a₂ : List (V × D))
    (hv : csp₁.vars = csp₂.vars)
    (hd : ∀ v, lookup? csp₁.domains v = lookup? csp₂.domains v)
    (hc : ∀ v, lookup? csp₁.constraints v = lookup? csp₂.constraints v)
    (hr : ∀ v, ∀ c ∈ constraintsAt csp₁ v, RespectsLookups c)
    (ha : AEquiv a₁ a₂) :
    OEquiv (csp₁.backtracking_search a₁) (csp₂.backtracking_search a₂) :=
  bs_OEquiv_aux _ csp₁ csp₂ a₁ a₂ hv hd hc hr rfl ha

/-- C4 (witness): two invocations on `cspABC` seeded with the same two-entry
map in the two possible storage orders produce results equal as maps. -/
theorem claim_C4_witness :
    OEquiv (cspABC.backtracking_search [(0, 1), (1, 2)])
      (cspABC.backtracking_search [(1, 2), (0, 1)]) := by
  apply claim_C4 cspABC cspABC _ _ rfl (fun v => rfl) (fun v => rfl)
  · intro v c hcm
    by_cases h2 : v = 2
    · subst h2
      have hlist : constraintsAt cspABC 2
          = [NotEqualConstraint [1, 2], NotEqualConstraint [0, 2]] := rfl
      rw [hlist] at hcm
      simp only [List.mem_cons, List.not_mem_nil, or_false] at hcm
      rcases hcm with h | h <;>
        (subst h; exact dependsOnScope_respects _ (notEqual_dependsOnScope _))
    · by_cases h0 : v = 0
      · subst h0
        have hlist : constraintsAt cspABC 0
            = [NotEqualConstraint [0, 1], NotEqualConstraint [0, 2]] := rfl
        rw [hlist] at hcm
        simp only [List.mem_cons, List.not_mem_nil, or_false] at hcm
        rcases hcm with h | h <;>
          (subst h; exact dependsOnScope_respects _ (notEqual_dependsOnScope _))
      · by_cases h1 : v = 1
        · subst h1
          have hlist : constraintsAt cspABC 1
              = [NotEqualConstraint [0, 1], NotEqualConstraint [1, 2]] := rfl
          rw [hlist] at hcm
          simp only [List.mem_cons, List.not_mem_nil, or_false] at hcm
          rcases hcm with h | h <;>
            (subst h; exact dependsOnScope_respects _ (notEqual_dependsOnScope _))
        · exfalso
          have hnil : constraintsAt cspABC v = [] := by
            show (lookup? cspABC.constraints v).getD [] = []
            have hcl : cspABC.constraints
                = [(2, [NotEqualConstraint [1, 2], NotEqualConstraint [0, 2]]),
                   (0, [NotEqualConstraint [0, 1], NotEqualConstraint [0, 2]]),
                   (2, [NotEqualConstraint [1, 2]]),
                   (1, [NotEqualConstraint [0, 1], NotEqualConstraint [1, 2]]),
                   (1, [NotEqualConstraint [0, 1]]),
                   (0, [NotEqualConstraint [0, 1]])] := rfl
            rw [hcl]
            simp [lookup?, Ne.symm h0, Ne.symm h1, Ne.symm h2]
          rw [hnil] at hcm
          exact absurd hcm (List.not_mem_nil c)
  · refine ⟨rfl, fun v => ?_⟩
    by_cases h0 : v = 0
    · subst h0; rfl
    · by_cases h1 : v = 1
      · subst h1; rfl
      · simp [lookup?, Ne.symm h0, Ne.symm h1]

/-- C5 (counterexample): a CSP whose single variable has an empty domain
still returns a solution when the search is seeded with a size-complete
assignment, so the claim fails for arbitrary initial assignments. -/
theorem claim_C5_counterexample :
    lookup? cspEmptyDom.domains 0 = some []
    ∧ cspEmptyDom.backtracking_search [(0, 5)] = some [(0, 5)] :=
  ⟨by decide, bs_complete _ _ (by decide)⟩

/-- C5 (amended): if some variable of the CSP has an empty domain list, the
search started from the empty assignment returns no-solution. -/
theorem claim_C5 (csp : CSP V D) (v : V) (hv : v ∈ csp.vars)
    (hd : lookup? csp.domains v = some []) :
    csp.backtracking_search [] = none := by
  cases hres : csp.backtracking_search [] with
  | none => rfl
  | some F =>
    obtain ⟨_, _, hall, hvals⟩ := bs_empty_solution csp F hres
    have hck := hall v hv
    rw [containsKey_iff_mem] at hck
    obtain ⟨d, hd'⟩ := mem_keysOf_exists F v hck
    have hmem := (hvals (v, d) hd').2
    rw [show mapIndex csp.domains v = [] by unfold mapIndex; rw [hd]; rfl] at hmem
    exact absurd hmem (List.not_mem_nil d)

/-- C5 (witness): the one-variable CSP with an empty domain yields
no-solution from the empty assignment. -/
theorem claim_C5_witness : cspEmptyDom.backtracking_search [] = none :=
  claim_C5 cspEmptyDom 0 (by decide) (by decide)

/-- C6 (counterexample): a not-equal constraint over three variables is
*not* satisfied by an assignment missing one of its scope variables when the
two present values collide — the vacuity claim fails for the not-equal
variant with more than two scope variables. -/
theorem claim_C6_counterexample :
    containsKey [((0 : Nat), (1 : Nat)), (1, 1)] 2 = false
    ∧ (NotEqualConstraint [0, 1, 2] : Constraint Nat Nat).satisfied
        [(0, 1), (1, 1)] = false :=
  ⟨by decide, by decide⟩

/-- C6 (amended): the map-coloring constraint is satisfied by any assignment
missing either scope variable; the not-equal constraint with a two-element
scope (the only arity the repository instantiates) is satisfied by any
assignment missing either scope variable.  (With three or more scope
variables the not-equal constraint instead requires the *present* values to
be pairwise distinct.) -/
theorem claim_C6 :
    (∀ (p1 p2 : V) (a : List (V × D)),
      lookup? a p1 = none ∨ lookup? a p2 = none →
      (MapColoringConstraint p1 p2).satisfied a = true)
    ∧ (∀ (x y : V) (a : List (V × D)),
      lookup? a x = none ∨ lookup? a y = none →
      (NotEqualConstraint [x, y] : Constraint V D).satisfied a = true) := by
  constructor
  · intro p1 p2 a h
    show (match lookup? a p1, lookup? a p2 with
      | some c1, some c2 => decide (c1 ≠ c2)
      | _, _ => true) = true
    rcases h with h | h
    · rw [h]
    · rw [h]
      cases lookup? a p1 <;> rfl
  · intro x y a h
    show pairwiseDistinctLoop ([x, y].filterMap fun v => lookup? a v) = true
    rcases h with h | h
    · simp only [List.filterMap_cons, List.filterMap_nil, h]
      cases lookup? a y <;> rfl
    · simp only [List.filterMap_cons, List.filterMap_nil, h]
      cases lookup? a x <;> rfl

/-- C6 (witness): both variants at a concrete assignment missing a scope
variable. -/
theorem claim_C6_witness :
    (MapColoringConstraint 0 1 : Constraint Nat Nat).satisfied [(0, 5)] = true
    ∧ (NotEqualConstraint [0, 1] : Constraint Nat Nat).satisfied [(0, 5)] = true :=
  ⟨claim_C6.1 0 1 [(0, 5)] (Or.inr rfl), claim_C6.2 0 1 [(0, 5)] (Or.inr rfl)⟩

/-- C7: `CSP::new` fails exactly when some variable lacks a domain entry; on
success (empty domain lists included) the CSP holds the given variables and
domains and an empty constraint index. -/
theorem claim_C7 (vs : List V) (domains : List (V × List D)) :
    (CSP.new vs domains = some ⟨vs, domains, []⟩
      ↔ ∀ v ∈ vs, containsKey domains v = true)
    ∧ (CSP.new vs domains = none ↔ ∃ v ∈ vs, containsKey domains v = false) := by
  unfold CSP.new
  by_cases h : vs.all fun v => containsKey domains v
  · rw [if_pos h]
    constructor
    · exact ⟨fun _ => fun v hv => List.all_eq_true.mp h v hv, fun _ => rfl⟩
    · constructor
      · intro hnone
        simp at hnone
      · rintro ⟨v, hv, hfalse⟩
        have htrue := List.all_eq_true.mp h v hv
        rw [hfalse] at htrue
        cases htrue
  · rw [if_neg h]
    have hex : ∃ v ∈ vs, containsKey domains v = false := by
      simp only [List.all_eq_true] at h
      push_neg at h
      obtain ⟨v, hv, hB⟩ := h
      exact ⟨v, hv, by simpa using hB⟩
    constructor
    · constructor
      · intro hsome
        simp at hsome
      · intro hallv
        exact absurd (List.all_eq_true.mpr fun v hv => hallv v hv) h
    · exact ⟨fun _ => hex, fun _ => rfl⟩

/-- C7 (witness): construction succeeds with an empty domain list present,
and fails exactly when an entry is missing. -/
theorem claim_C7_witness :
    CSP.new [0] [((0 : Nat), ([] : List Nat))] = some ⟨[0], [(0, [])], []⟩
    ∧ CSP.new [(0 : Nat), 1] [((0 : Nat), [(1 : Nat)])] = none :=
  ⟨(claim_C7 [0] [(0, [])]).1.mpr (by decide),
   (claim_C7 [0, 1] [(0, [1])]).2.mpr ⟨1, by decide, by decide⟩⟩

/-- C8: `add_constraint` fails exactly when some scope variable is absent
from the CSP's variable list; on success it appends the constraint to the
index entry of every scope variable — one append per occurrence in the
scope, so a constraint over k variables is indexed k times — and changes
nothing else. -/
theorem claim_C8 (csp : CSP V D) (c : Constraint V D) :
    ((∃ st, csp.add_constraint c = .error st) ↔ ∃ v ∈ c.vars, v ∉ csp.vars)
    ∧ ((∀ v ∈ c.vars, v ∈ csp.vars) →
      ∃ csp', csp.add_constraint c = .ok csp' ∧ csp'.vars = csp.vars
        ∧ csp'.domains = csp.domains
        ∧ ∀ u, constraintsAt csp' u
            = constraintsAt csp u ++ List.replicate (c.vars.count u) c) :=
  ⟨addLoop_error_iff c c.vars csp, fun hall => addLoop_ok c c.vars csp hall⟩

/-- C8 (witness): registering a constraint with an unknown scope variable
fails; registering the not-equal constraint on `(0, 1)` in `cspPair`
succeeds and appends it under both scope variables. -/
theorem claim_C8_witness :
    (∃ st, cspSingle.add_constraint (NotEqualConstraint [0, 5]) = .error st)
    ∧ (∃ csp', cspPair.add_constraint (NotEqualConstraint [0, 1]) = .ok csp'
      ∧ csp'.vars = cspPair.vars ∧ csp'.domains = cspPair.domains
      ∧ ∀ u, constraintsAt csp' u = constraintsAt cspPair u
          ++ List.replicate
            (((NotEqualConstraint [0, 1] : Constraint Nat Nat).vars).count u)
            (NotEqualConstraint [0, 1])) :=
  ⟨(claim_C8 cspSingle (NotEqualConstraint [0, 5])).1.mpr
      ⟨5, by decide, by decide⟩,
   (claim_C8 cspPair (NotEqualConstraint [0, 1])).2 (by decide)⟩

/-- C9: an initial assignment whose size equals the number of variables is
returned unchanged as the solution — no constraint is evaluated and no key
is inspected, for any CSP and any such assignment (foreign or inconsistent
keys included). -/
theorem claim_C9 (csp : CSP V D) (a : List (V × D))
    (h : a.length = csp.vars.length) :
    csp.backtracking_search a = some a :=
  bs_complete csp a h

/-- C9 (witness): a seeded assignment of the right size whose only key is
not even a variable of the CSP is returned as the solution. -/
theorem claim_C9_witness :
    cspSingle.backtracking_search [(9, 9)] = some [(9, 9)] :=
  claim_C9 cspSingle [(9, 9)] (by decide)

/-- C10: `add_constraint` is not atomic on failure — when the scope is
`pre ++ bad :: rest` with every variable of `pre` known and `bad` unknown,
the call fails with the constraint already appended to the index entries of
all the `pre` variables, and that state is kept. -/
theorem claim_C10 (csp : CSP V D) (c : Constraint V D) (pre rest : List V)
    (bad : V)
    (hscope : c.vars = pre ++ bad :: rest)
    (hpre : ∀ v ∈ pre, v ∈ csp.vars)
    (hbad : bad ∉ csp.vars) :
    ∃ st, csp.add_constraint c = .error st ∧ st.vars = csp.vars
      ∧ st.domains = csp.domains
      ∧ ∀ u, constraintsAt st u
          = constraintsAt csp u ++ List.replicate (pre.count u) c := by
  unfold CSP.add_constraint
  rw [hscope]
  exact addLoop_error_state c bad rest pre csp hpre hbad

/-- C10 (witness): adding a constraint with scope `[0, 7]` to the
one-variable CSP `{0}` fails after the constraint was already indexed
under `0`. -/
theorem claim_C10_witness :
    ∃ st, cspSingle.add_constraint (NotEqualConstraint [0, 7]) = .error st
      ∧ st.vars = cspSingle.vars ∧ st.domains = cspSingle.domains
      ∧ ∀ u, constraintsAt st u = constraintsAt cspSingle u
          ++ List.replicate (List.count u [0]) (NotEqualConstraint [0, 7]) :=
  claim_C10 cspSingle (NotEqualConstraint [0, 7]) [0] [] 7 rfl
    (by decide) (by decide)
